/-
Verification of the cokacenc chunked-encryption tool.

Shallow embedding of the Rust sources (src/naming.rs, src/pack.rs,
src/unpack.rs, src/main.rs).  Rust `String`s and byte buffers are modelled
as `List Nat` (their UTF-8 bytes); `u32`/`u64`/`usize` are modelled as
`Nat`, with an explicit `% 2^32` where the source truncates (`as u32`).
The crates `md5` and `serde_json`, and the repository modules `crypto.rs`
and `error.rs`, are not part of the source tree given under src/; they are
modelled from the specification where a claim needs them (each such
definition carries a doc comment saying so).
-/
import Mathlib

namespace Cokacenc

/-- Errors of the tool.  Modelled from the spec: `error.rs` is not under
src/; the constructors are the ones constructed by the callers in
src/naming.rs, src/pack.rs and src/unpack.rs.  String payloads of the Rust
enum are replaced by the data they are formatted from. -/
inductive Cerr where
  | SeqOverflow (index : Nat)
  | MissingChunk (expected : List Nat)
  | MetadataParse
  | Md5Mismatch (expected actual : List Nat)
  | NoEncFiles
  | Other (expected actual : Nat)
  | Io (code : Nat)
  deriving DecidableEq, Repr

/-- Little-endian 4-byte encoding of a `u32` (`u32::to_le_bytes`). -/
def toLE4 (n : Nat) : List Nat :=
  [n % 256, n / 256 % 256, n / 65536 % 256, n / 16777216 % 256]

/-- `u32::from_le_bytes` on a 4-byte buffer. -/
def fromLE4 (l : List Nat) : Nat :=
  l.getD 0 0 + 256 * l.getD 1 0 + 65536 * l.getD 2 0 + 16777216 * l.getD 3 0

/-- Little-endian 8-byte encoding of a `u64`. -/
def toLE8 (n : Nat) : List Nat :=
  [n % 256, n / 256 % 256, n / 65536 % 256, n / 16777216 % 256,
   n / 4294967296 % 256, n / 1099511627776 % 256,
   n / 281474976710656 % 256, n / 72057594037927936 % 256]

/-- `u64::from_le_bytes` on an 8-byte buffer. -/
def fromLE8 (l : List Nat) : Nat :=
  l.getD 0 0 + 256 * l.getD 1 0 + 65536 * l.getD 2 0 + 16777216 * l.getD 3 0
    + 4294967296 * l.getD 4 0 + 1099511627776 * l.getD 5 0
    + 281474976710656 * l.getD 6 0 + 72057594037927936 * l.getD 7 0

-- ─── naming.rs ─────────────────────────────────────────────────────────

/-- The bytes of the label `seq_label` builds for an in-range index
(src/naming.rs lines 21-25): four lowercase letters, most significant
first, base 26.  `26*26*26 = 17576`, `26*26 = 676`. -/
def labelChars (index : Nat) : List Nat :=
  [97 + index / 17576, 97 + index / 676 % 26, 97 + index / 26 % 26,
   97 + index % 26]

/-- src/naming.rs `seq_label` (lines 17-26): convert an index to a
four-letter sequence label, failing with `SeqOverflow` above 456975. -/
def seq_label (index : Nat) : Except Cerr (List Nat) :=
  if 456975 < index then .error (.SeqOverflow index)
  else .ok (labelChars index)

/-- src/naming.rs `parse_seq_label` (lines 29-42): parse a four-letter
label back to its index.  `checked_sub(b'a')` failing is the `b < 97`
test; the `> 25` test is the source's range check. -/
def parse_seq_label : List Nat → Option Nat
  | [a, b, c, d] =>
    if a < 97 ∨ b < 97 ∨ c < 97 ∨ d < 97 then none
    else
      if 25 < a - 97 ∨ 25 < b - 97 ∨ 25 < c - 97 ∨ 25 < d - 97 then none
      else some ((a - 97) * (26 * 26 * 26) + (b - 97) * (26 * 26)
        + (c - 97) * 26 + (d - 97))
  | _ => none

-- ─── unpack.rs: MetadataSplitWriter ────────────────────────────────────

/-- The three states of `MetadataSplitWriter` (src/unpack.rs lines 14-18). -/
inductive SplitState where
  | ReadingLen
  | ReadingMeta
  | Data
  deriving DecidableEq, Repr

/-- `MetadataSplitWriter` (src/unpack.rs lines 23-30).  The Rust struct
keeps a fixed `[u8; 4]` array plus a fill counter `len_filled`; we keep
the filled portion as the list `len_buf` (so `len_filled` is
`len_buf.length`).  `outBytes` records the bytes forwarded to the inner
writer (`inner.write_all`), which in the source always accepts them. -/
structure SplitW where
  sstate : SplitState
  len_buf : List Nat
  meta_buf : List Nat
  meta_len : Nat
  outBytes : List Nat
  deriving DecidableEq, Repr

/-- `MetadataSplitWriter::new` (src/unpack.rs lines 33-42). -/
def msNew : SplitW := ⟨.ReadingLen, [], [], 0, []⟩

/-- Rank used only for the termination measure of `mswrite`: every loop
iteration of the source either consumes input bytes or moves the state
strictly down this rank. -/
def stRank : SplitState → Nat
  | .ReadingLen => 2
  | .ReadingMeta => 1
  | .Data => 0

/-- `MetadataSplitWriter::write` (src/unpack.rs lines 55-95): the
`while pos < total` loop over one input span `buf`.  Each branch mirrors
one iteration.  In the two branches that return `w` unchanged on
non-empty input (`len_buf` overfilled past 4, `meta_buf` overfilled past
`meta_len`) the Rust loop would spin forever; these states are not
reachable from `msNew` and the model returns instead. -/
def mswrite (w : SplitW) (buf : List Nat) : SplitW :=
  match hb : buf with
  | [] => w
  | _ :: _ =>
    match hs : w.sstate with
    | .ReadingLen =>
      if 4 ≤ w.len_buf.length then
        -- need = 4 - len_filled = 0, take = 0: only the `len_filled == 4`
        -- transition can happen in this iteration
        if w.len_buf.length = 4 then
          let L := fromLE4 w.len_buf
          if L = 0 then
            mswrite { w with sstate := .Data, meta_buf := [], meta_len := L } buf
          else
            mswrite { w with sstate := .ReadingMeta, meta_buf := [], meta_len := L } buf
        else w
      else
        let need := 4 - w.len_buf.length
        let tk := min need buf.length
        let lb := w.len_buf ++ buf.take tk
        let rest := buf.drop tk
        if lb.length = 4 then
          let L := fromLE4 lb
          if L = 0 then
            mswrite { w with sstate := .Data, len_buf := lb, meta_buf := [], meta_len := L } rest
          else
            mswrite { w with sstate := .ReadingMeta, len_buf := lb, meta_buf := [], meta_len := L } rest
        else
          mswrite { w with len_buf := lb } rest
    | .ReadingMeta =>
      if w.meta_len ≤ w.meta_buf.length then
        if w.meta_buf.length = w.meta_len then
          mswrite { w with sstate := .Data } buf
        else w
      else
        let need := w.meta_len - w.meta_buf.length
        let tk := min need buf.length
        let mb := w.meta_buf ++ buf.take tk
        let rest := buf.drop tk
        if mb.length = w.meta_len then
          mswrite { w with sstate := .Data, meta_buf := mb } rest
        else
          mswrite { w with meta_buf := mb } rest
    | .Data => { w with outBytes := w.outBytes ++ buf }
termination_by 3 * buf.length + stRank w.sstate
decreasing_by
  all_goals subst hb
  all_goals simp only [hs, stRank, List.length_drop, List.length_cons,
    List.length_append, List.length_take]
  all_goals omega

/-- `MetadataSplitWriter::take_metadata_bytes` (src/unpack.rs lines
44-51): the buffered metadata, or `MetadataParse` ("Incomplete metadata
in chunk") when the forwarding state was never reached. -/
def take_metadata_bytes (w : SplitW) : Except Cerr (List Nat) :=
  match w.sstate with
  | .Data => .ok w.meta_buf
  | _ => .error .MetadataParse

-- ─── pack.rs: chunk metadata and its serialization ─────────────────────

/-- `ChunkMetadata` (src/pack.rs lines 18-42).  Rust strings are byte
lists; `modified` is an `i64` in the source but is always the
non-negative `duration_since(UNIX_EPOCH)` seconds (or 0), so `Nat`. -/
structure ChunkMetadata where
  version : Nat
  group_id : List Nat
  filename : List Nat
  file_size : Nat
  file_md5 : List Nat
  modified : Nat
  permissions : Nat
  total_chunks : Nat
  chunk_index : Nat
  chunk_offset : Nat
  chunk_data_size : Nat
  deriving DecidableEq, Repr

/-- Length-prefixed byte-string field of the metadata record encoding. -/
def encBytesF (bs : List Nat) : List Nat := toLE8 bs.length ++ bs

/-- Serialization of a `ChunkMetadata` record.  The source serializes
with the external crate serde_json (`serde_json::to_vec`, src/pack.rs
line 210); the pipelines rely only on the encoding being deterministic,
of known byte length, and losslessly invertible
(`serde_json::from_slice`, src/unpack.rs line 206), so the JSON text is
modelled by this fixed-field length-prefixed encoding with the same
three properties. -/
def encMeta (m : ChunkMetadata) : List Nat :=
  toLE8 m.version ++ encBytesF m.group_id ++ encBytesF m.filename
    ++ toLE8 m.file_size ++ encBytesF m.file_md5 ++ toLE8 m.modified
    ++ toLE8 m.permissions ++ toLE8 m.total_chunks ++ toLE8 m.chunk_index
    ++ toLE8 m.chunk_offset ++ toLE8 m.chunk_data_size

/-- Read one 8-byte little-endian number off the front of a buffer. -/
def readN8 (l : List Nat) : Option (Nat × List Nat) :=
  if 8 ≤ l.length then some (fromLE8 (l.take 8), l.drop 8) else none

/-- Read one length-prefixed byte-string field off the front of a buffer. -/
def readBytesF (l : List Nat) : Option (List Nat × List Nat) :=
  match readN8 l with
  | none => none
  | some (n, r) => if n ≤ r.length then some (r.take n, r.drop n) else none

/-- Deserialization of a `ChunkMetadata` record (stand-in for
`serde_json::from_slice`, src/unpack.rs line 206); trailing bytes are
rejected, as `from_slice` rejects trailing data. -/
def decMeta (l : List Nat) : Option ChunkMetadata :=
  match readN8 l with
  | none => none
  | some (v, r1) =>
  match readBytesF r1 with
  | none => none
  | some (g, r2) =>
  match readBytesF r2 with
  | none => none
  | some (nm, r3) =>
  match readN8 r3 with
  | none => none
  | some (sz, r4) =>
  match readBytesF r4 with
  | none => none
  | some (h5, r5) =>
  match readN8 r5 with
  | none => none
  | some (md, r6) =>
  match readN8 r6 with
  | none => none
  | some (pm, r7) =>
  match readN8 r7 with
  | none => none
  | some (tc, r8) =>
  match readN8 r8 with
  | none => none
  | some (ci, r9) =>
  match readN8 r9 with
  | none => none
  | some (co, r10) =>
  match readN8 r10 with
  | none => none
  | some (cl, r11) =>
  if r11 = [] then some ⟨v, g, nm, sz, h5, md, pm, tc, ci, co, cl⟩ else none

/-- All numeric fields and byte-string lengths of the record fit in a
`u64`, as they do for every record the Rust program builds. -/
def MetaBounded (m : ChunkMetadata) : Prop :=
  m.version < 2 ^ 64 ∧ m.group_id.length < 2 ^ 64 ∧ m.filename.length < 2 ^ 64
    ∧ m.file_size < 2 ^ 64 ∧ m.file_md5.length < 2 ^ 64 ∧ m.modified < 2 ^ 64
    ∧ m.permissions < 2 ^ 64 ∧ m.total_chunks < 2 ^ 64 ∧ m.chunk_index < 2 ^ 64
    ∧ m.chunk_offset < 2 ^ 64 ∧ m.chunk_data_size < 2 ^ 64

instance (m : ChunkMetadata) : Decidable (MetaBounded m) := by
  unfold MetaBounded; infer_instance

-- ─── crypto.rs (modelled) ──────────────────────────────────────────────

/-- Modelled from the spec: `crypto.rs` is not under src/.  §4.1 requires
`derive_key` (PBKDF2-HMAC-SHA512) to be a deterministic function of the
trimmed password and the salt; determinism is the only property the
pipelines use, so the key is modelled as the pair of its inputs. -/
def derive_key (password salt : List Nat) : List Nat := password ++ salt

/-- Key+IV-dependent keystream byte of the modelled cipher. -/
def keystreamByte (key iv : List Nat) : Nat := (key.sum + iv.sum) % 256

/-- Modelled from the spec: `crypto.rs` (`ChunkEncryptor::update/finalize`
and `decrypt_chunk_streaming`) is not under src/.  §4.2 requires the
streaming decryptor to invert the encryptor for a matching key and IV
(AES-256-CBC with PKCS7 padding), with the concatenation of the
incremental `update` outputs plus `finalize` equal to the encryption of
the concatenated plaintext.  The cipher is modelled as a self-inverse
keystream XOR with those properties. -/
def cipherApply (key iv : List Nat) (data : List Nat) : List Nat :=
  data.map (fun b => b ^^^ keystreamByte key iv)

/-- Modelled from the spec: `write_header`/`read_header` of `crypto.rs`
are not under src/.  The header carries exactly the fields the unpack
pipeline reads back (src/unpack.rs line 191): salt, IV, and the header
filename the source ignores (§9 of the spec flags this extra field). -/
structure HeaderV2 where
  salt : List Nat
  iv : List Nat
  hname : List Nat
  deriving DecidableEq, Repr

-- ─── pack.rs: the pack pipeline (pure core) ────────────────────────────

/-- Inputs of one `pack_file` invocation (src/pack.rs lines 143-151),
together with the stat results of pass 1 (`gather_file_info`):
`content` is the file's bytes, `split_size` the effective split size
(`u64::MAX` or `split_size_mb * 1024 * 1024`, always ≥ 1). -/
structure PackArgs where
  content : List Nat
  original_name : List Nat
  password : List Nat
  split_size : Nat
  use_md5 : Bool
  group_id : List Nat
  modified : Nat
  permissions : Nat

/-- `total_chunks` (src/pack.rs lines 162-166), computed in `u64`: for
`u64` inputs the addition `size + split_size` wraps modulo `2^64` in a
release build (a debug build panics on the same overflow), and the
subsequent `- 1` borrows across the wrap, so the numerator is
`(size + split_size - 1) % 2^64` (for `size + split_size ≥ 1` the two
wrap formulations agree).  The overflow is reachable: `pack_directory`
sets `split_size = u64::MAX` when `--size 0` is given, so any file of
2 or more bytes wraps here. -/
def totalChunksOf (size split_size : Nat) : Nat :=
  if size = 0 then 1 else ((size + split_size - 1) % 2 ^ 64) / split_size

/-- `chunk_data_size` (src/pack.rs lines 177-181).  The `u64`
subtraction `size - offset` and the multiplication `i * split_size` are
evaluated only for `i < total_chunks`, where (whenever any chunk is
produced at all) `i * split_size < size < 2^64`, so neither wraps on a
reachable iteration and plain `Nat` is faithful here. -/
def chunkLen (size split_size i : Nat) : Nat :=
  if size = 0 then 0 else min split_size (size - i * split_size)

/-- The hash of pass 1 (src/pack.rs lines 71-85): the full-file digest
when `use_md5`, the empty string otherwise.  `md5fn` is the external
`md5` crate's hex digest, a parameter of the model. -/
def fileMd5 (md5fn : List Nat → List Nat) (a : PackArgs) : List Nat :=
  if a.use_md5 then md5fn a.content else []

/-- The metadata record pack embeds in chunk `i` (src/pack.rs lines
183-195). -/
def packMeta (md5fn : List Nat → List Nat) (a : PackArgs) (i : Nat) : ChunkMetadata :=
  { version := 2
    group_id := a.group_id
    filename := a.original_name
    file_size := a.content.length
    file_md5 := fileMd5 md5fn a
    modified := a.modified
    permissions := a.permissions
    total_chunks := totalChunksOf a.content.length a.split_size
    chunk_index := i
    chunk_offset := i * a.split_size
    chunk_data_size := chunkLen a.content.length a.split_size i }

/-- The plaintext encrypted into chunk `i` (src/pack.rs lines 209-228):
4-byte LE metadata length (`meta_bytes.len() as u32`, hence `% 2^32`),
the metadata bytes, then the chunk's slice of the source file (the
source reads sequentially, `chunk_data_size` bytes from offset
`i * split_size`). -/
def chunkPlain (md5fn : List Nat → List Nat) (a : PackArgs) (i : Nat) : List Nat :=
  let mb := encMeta (packMeta md5fn a i)
  toLE4 (mb.length % 2 ^ 32) ++ mb
    ++ (a.content.drop (i * a.split_size)).take (chunkLen a.content.length a.split_size i)

/-- One chunk file as `pack_file` writes it (src/pack.rs lines 175-233):
fresh salt/IV from the randomness oracles `saltf`/`ivf`, the header, and
the encrypted plaintext.  `seq` is the sequence index the chunk's file
name carries (pack names chunk `i` with `seq_label i`; the parser
recovers `i`, the round-trip proved for `seq_label`/`parse_seq_label`). -/
structure ChunkFileM where
  seq : Nat
  header : HeaderV2
  ct : List Nat
  deriving DecidableEq, Repr

/-- Chunk `i` of a pack invocation. -/
def packChunk (md5fn saltf ivf : List Nat → List Nat) (a : PackArgs) (i : Nat) : ChunkFileM :=
  { seq := i
    header := ⟨saltf (toLE8 i), ivf (toLE8 i), a.original_name⟩
    ct := cipherApply (derive_key a.password (saltf (toLE8 i))) (ivf (toLE8 i))
      (chunkPlain md5fn a i) }

/-- `pack_file`, pass 2 (src/pack.rs lines 143-269), as the pure function
from the invocation inputs to the chunk files written.  File-system
effects (creation, rollback, deletion of the original) are modelled
separately by `pack_file_fs`. -/
def pack_file (md5fn saltf ivf : List Nat → List Nat) (a : PackArgs) : List ChunkFileM :=
  (List.range (totalChunksOf a.content.length a.split_size)).map (packChunk md5fn saltf ivf a)

-- ─── unpack.rs: the unpack pipeline (pure core) ────────────────────────

/-- The sequence-continuity loop of `unpack_file_group` (src/unpack.rs
lines 166-172): position `i` must carry sequence index `i`; on the first
mismatch the error names `seq_label i` (and `seq_label`'s own failure
propagates, as `?` does). -/
def contAux : Nat → List Nat → Except Cerr Unit
  | _, [] => .ok ()
  | i, s :: rest =>
    if s ≠ i then
      match seq_label i with
      | .error e => .error e
      | .ok lab => .error (.MissingChunk lab)
    else contAux (i + 1) rest

/-- Per-chunk decryption of `unpack_file_group` (src/unpack.rs lines
188-204): read the header, derive the key, decrypt the ciphertext
through `MetadataSplitWriter` (the decrypted spans all feed the same
`write`; by the span-insensitivity of `mswrite` the model feeds the
whole plaintext), and take the buffered metadata bytes; `outBytes` are
the bytes the `TeeWriter` appended to the temp file and hashed. -/
def processChunk (pw : List Nat) (cf : ChunkFileM) : Except Cerr (List Nat × List Nat) :=
  let key := derive_key pw cf.header.salt
  let plain := cipherApply key cf.header.iv cf.ct
  let w := mswrite msNew plain
  match take_metadata_bytes w with
  | .error e => .error e
  | .ok mb => .ok (mb, w.outBytes)

/-- The per-chunk loop of `unpack_file_group` from chunk 1 on
(src/unpack.rs lines 187-233): decrypt, parse the metadata, check
`chunk_index == i`, cross-check filename and (when non-empty) hash
against chunk 0's, and accumulate the forwarded file data. -/
def unpackChunksAux (pw name0 md50 : List Nat) : Nat → List ChunkFileM → Except Cerr (List Nat)
  | _, [] => .ok []
  | i, cf :: rest =>
    match processChunk pw cf with
    | .error e => .error e
    | .ok (mb, dat) =>
      match decMeta mb with
      | none => .error .MetadataParse
      | some m =>
        if m.chunk_index ≠ i then .error .MetadataParse
        else if m.filename ≠ name0 ∨ (md50 ≠ [] ∧ m.file_md5 ≠ md50) then .error .MetadataParse
        else
          match unpackChunksAux pw name0 md50 (i + 1) rest with
          | .error e => .error e
          | .ok datRest => .ok (dat ++ datRest)

/-- `unpack_file_group` (src/unpack.rs lines 157-292) as the pure
function from the group's sorted chunk files to the restored
(filename, contents) pair: empty-group check, sequence continuity,
per-chunk decryption with chunk 0 seeding name/hash/size, then the hash
comparison (skipped when the declared hash is empty) and the size
comparison.  Temp-file effects are modelled separately by
`validatePhase`. -/
def unpack_file_group (pw : List Nat) (md5fn : List Nat → List Nat)
    (chunks : List ChunkFileM) : Except Cerr (List Nat × List Nat) :=
  match chunks with
  | [] => .error .NoEncFiles
  | c0 :: rest =>
    match contAux 0 (List.map ChunkFileM.seq (c0 :: rest)) with
    | .error e => .error e
    | .ok _ =>
      match processChunk pw c0 with
      | .error e => .error e
      | .ok (mb0, dat0) =>
        match decMeta mb0 with
        | none => .error .MetadataParse
        | some m0 =>
          if m0.chunk_index ≠ 0 then .error .MetadataParse
          else
            match unpackChunksAux pw m0.filename m0.file_md5 1 rest with
            | .error e => .error e
            | .ok datRest =>
              let merged := dat0 ++ datRest
              let md5_hex := md5fn merged
              if m0.file_md5 ≠ [] ∧ md5_hex ≠ m0.file_md5 then
                .error (.Md5Mismatch m0.file_md5 md5_hex)
              else if merged.length ≠ m0.file_size then
                .error (.Other m0.file_size merged.length)
              else .ok (m0.filename, merged)

-- ─── pack.rs: file-system effects of pack_file ─────────────────────────

/-- Where an injected failure hits the per-chunk loop of `pack_file`:
`atCreate i` fails while building chunk `i`'s name or creating its file
(no file appears); `afterCreate i` fails in any later step of iteration
`i` (salt/IV, key derivation, header or ciphertext writes, finalize,
flush), after the file was created. -/
inductive PackFailPoint where
  | atCreate (i : Nat)
  | afterCreate (i : Nat)
  deriving DecidableEq, Repr

/-- Directory state seen by one `pack_file` invocation: the chunk files
of this invocation (by index), the unrelated pre-existing files, and
whether the source file exists. -/
structure PackFsSt where
  chunks : List Nat
  otherFiles : List Nat
  sourcePresent : Bool
  deriving DecidableEq, Repr

/-- The chunk loop of `pack_file` (src/pack.rs lines 174-236) with its
file-system effects: `created` is the source's `created_chunks` vector
(a path is pushed right after `File::create` succeeds, line 199).
`fail` injects the failure `e` at the given point. -/
def packLoopFS (fail : Option PackFailPoint) (e : Cerr) :
    Nat → Nat → List Nat → PackFsSt → Except Cerr Unit × List Nat × PackFsSt
  | _, 0, created, st => (.ok (), created, st)
  | i, n + 1, created, st =>
    if fail = some (.atCreate i) then (.error e, created, st)
    else
      let st1 := { st with chunks := st.chunks ++ [i] }
      let created1 := created ++ [i]
      if fail = some (.afterCreate i) then (.error e, created1, st1)
      else packLoopFS fail e (i + 1) n created1 st1

/-- `pack_file`'s effect skeleton (src/pack.rs lines 168-269): run the
chunk loop; on error remove every file in `created_chunks` and
propagate (lines 238-244); on success delete the original exactly when
requested (lines 263-266). -/
def pack_file_fs (fail : Option PackFailPoint) (e : Cerr) (total : Nat) (delete : Bool)
    (st : PackFsSt) : Except Cerr Unit × PackFsSt :=
  match packLoopFS fail e 0 total [] st with
  | (.error e1, created, st1) =>
    (.error e1, { st1 with chunks := st1.chunks.filter (fun c => !created.contains c) })
  | (.ok _, _, st1) =>
    (.ok (), if delete then { st1 with sourcePresent := false } else st1)

/-- Whether the injected failure point is actually reached by a run over
`total` chunks (the loop visits every index below `total`). -/
def failTriggered (fail : Option PackFailPoint) (total : Nat) : Prop :=
  match fail with
  | some (.atCreate i) => i < total
  | some (.afterCreate i) => i < total
  | none => False

instance (fail : Option PackFailPoint) (total : Nat) :
    Decidable (failTriggered fail total) := by
  unfold failTriggered
  rcases fail with _ | ⟨i⟩ | ⟨i⟩ <;> infer_instance

-- ─── unpack.rs: temp-file effects of the validation phase ──────────────

/-- State of the target directory during `unpack_file_group`'s
validation: the hidden temp file (presence and merged contents) and the
unrelated files. -/
structure UnpSt where
  tempPresent : Bool
  tempContent : List Nat
  otherFiles : List Nat
  deriving DecidableEq, Repr

/-- The validation phase of `unpack_file_group` (src/unpack.rs lines
237-261): compare the accumulated hash with the declared one unless the
declared hash is empty, then compare the temp file's length
(`fs::metadata(..).len().unwrap_or(0)`) with the declared `file_size`;
each mismatch removes the temp file and fails. -/
def validatePhase (md5fn : List Nat → List Nat) (expected_md5 : List Nat) (file_size : Nat)
    (st : UnpSt) : Except Cerr Unit × UnpSt :=
  let md5_hex := md5fn st.tempContent
  if expected_md5 ≠ [] ∧ md5_hex ≠ expected_md5 then
    (.error (.Md5Mismatch expected_md5 md5_hex), { st with tempPresent := false })
  else
    let actual_size := if st.tempPresent then st.tempContent.length else 0
    if actual_size ≠ file_size then
      (.error (.Other file_size actual_size), { st with tempPresent := false })
    else (.ok (), st)

-- ─── naming.rs: the chunk-name grammar the source implements ───────────

/-- The bytes of `EXT` = ".cokacenc" (src/naming.rs line 8). -/
def EXTb : List Nat := [46, 99, 111, 107, 97, 99, 101, 110, 99]

/-- The bytes of "SPLTD." (the split-format marker, src/naming.rs). -/
def SPLTDdot : List Nat := [83, 80, 76, 84, 68, 46]

/-- `u8::is_ascii_hexdigit`: 0-9, a-f, A-F. -/
def isHexAsciiB (b : Nat) : Bool :=
  decide ((48 ≤ b ∧ b ≤ 57) ∨ (97 ≤ b ∧ b ≤ 102) ∨ (65 ≤ b ∧ b ≤ 70))

/-- `EncFileInfo` (src/naming.rs lines 85-92), without the `path` field
(the model works on file names). -/
structure EncFileInfo where
  original_name : List Nat
  is_split : Bool
  md5_fragment : List Nat
  seq_index : Option Nat
  deriving DecidableEq, Repr

/-- `final_chunk_name` (src/naming.rs lines 61-74), as the produced file
name (the `dir.join` prefix is dropped).  `fnmd5f` stands for
`filename_md5_prefix` (the md5 crate digest's first five hex chars, a
parameter of the model); `md5_hex.take 8` is `&md5_hex[..8.min(len)]`. -/
def final_chunk_name (fnmd5f : List Nat → List Nat) (original_name md5_hex : List Nat)
    (seq : Nat) : Except Cerr (List Nat) :=
  match seq_label seq with
  | .error e => .error e
  | .ok label =>
    .ok (fnmd5f original_name ++ [46] ++ SPLTDdot ++ md5_hex.take 8 ++ [46]
      ++ label ++ [46] ++ original_name ++ EXTb)

/-- `parse_enc_filename` (src/naming.rs lines 98-185) on the file-name
bytes. -/
def parse_enc_filename (fnmd5f : List Nat → List Nat) (filename : List Nat) :
    Option EncFileInfo :=
  if ¬ EXTb.isSuffixOf filename then none
  else
    let base := filename.take (filename.length - EXTb.length)
    if base.length < 6 then none
    else if ¬ (base.take 5).all isHexAsciiB then none
    else if base.getD 5 0 ≠ 46 then none
    else
      let after := base.drop 6
      if SPLTDdot.isPrefixOf after then
        let rest := after.drop 6
        if rest.length < 14 then none
        else if ¬ (rest.take 8).all isHexAsciiB then none
        else if rest.getD 8 0 ≠ 46 then none
        else
          match parse_seq_label ((rest.drop 9).take 4) with
          | none => none
          | some si =>
            if rest.getD 13 0 ≠ 46 then none
            else
              let onm := rest.drop 14
              if onm = [] then none
              else if base.take 5 ≠ fnmd5f onm then none
              else some ⟨onm, true, rest.take 8, some si⟩
      else
        if after.length < 10 then none
        else if ¬ (after.take 8).all isHexAsciiB then none
        else if after.getD 8 0 ≠ 46 then none
        else
          let onm := after.drop 9
          if onm = [] then none
          else if base.take 5 ≠ fnmd5f onm then none
          else some ⟨onm, false, after.take 8, none⟩

/-- The sort key of `group_enc_files` (src/naming.rs line 208):
`seq_index.unwrap_or(0)`. -/
def seqKeyOf (inf : EncFileInfo) : Nat := inf.seq_index.getD 0

/-- The per-bucket sort of `group_enc_files` (src/naming.rs lines
207-209): Rust's `sort_by_key` is stable; insertion sort with `≤` on
the key is its stable counterpart. -/
def sortBySeq (l : List EncFileInfo) : List EncFileInfo :=
  List.insertionSort (fun x y => seqKeyOf x ≤ seqKeyOf y) l

/-- `group_enc_files` (src/naming.rs lines 189-212), with the `BTreeMap`
read extensionally: `group_enc_files fnmd5f entries key` is the bucket
stored under `key`.  `entries` are the directory's file names in scan
order (the scan is non-recursive: `std::fs::read_dir` yields the
directory's own entries only); names that do not parse are skipped,
each parsed entry is pushed to the bucket of its `original_name`, and
each bucket is sorted by `seq_index.unwrap_or(0)`. -/
def group_enc_files (fnmd5f : List Nat → List Nat) (entries : List (List Nat))
    (key : List Nat) : List EncFileInfo :=
  sortBySeq (((entries.filterMap (parse_enc_filename fnmd5f)).filter
    (fun inf => inf.original_name == key)))

-- ─── the grammar claimed by the spec (for comparison) ──────────────────

/-- Lowercase hex digit: 0-9, a-f. -/
def isLowerHexB (b : Nat) : Bool := decide ((48 ≤ b ∧ b ≤ 57) ∨ (97 ≤ b ∧ b ≤ 102))

/-- Lowercase letter: a-z. -/
def isLowerAlphaB (b : Nat) : Bool := decide (97 ≤ b ∧ b ≤ 122)

/-- The chunk-file-name grammar the spec (§6) and claim C2 state, written
from the claim's words for comparison with the source:
`<group_id: 16 lowercase hex> _ <seq: 4 lowercase letters> .cokacenc`. -/
def claimedGrammarB (name : List Nat) : Bool :=
  decide (name.length = 16 + 1 + 4 + EXTb.length)
    && (name.take 16).all isLowerHexB
    && decide (name.getD 16 0 = 95)
    && ((name.drop 17).take 4).all isLowerAlphaB
    && decide (name.drop 21 = EXTb)

-- ─── Lemmas: MetadataSplitWriter is span-insensitive ───────────────────

theorem mswrite_nil (w : SplitW) : mswrite w [] = w := by
  simp [mswrite]


theorem ms_data_step (lb mb : List Nat) (ml : Nat) (ob : List Nat) (buf : List Nat)
    (hne : buf ≠ []) :
    mswrite ⟨.Data, lb, mb, ml, ob⟩ buf = ⟨.Data, lb, mb, ml, ob ++ buf⟩ := by
  cases buf with
  | nil => exact absurd rfl hne
  | cons b bs => rw [mswrite.eq_def]

theorem ms_rl_trans (lb mb : List Nat) (ml : Nat) (ob : List Nat) (buf : List Nat)
    (hne : buf ≠ []) (he : lb.length = 4) :
    mswrite ⟨.ReadingLen, lb, mb, ml, ob⟩ buf =
      (if fromLE4 lb = 0 then mswrite ⟨.Data, lb, [], fromLE4 lb, ob⟩ buf
       else mswrite ⟨.ReadingMeta, lb, [], fromLE4 lb, ob⟩ buf) := by
  cases buf with
  | nil => exact absurd rfl hne
  | cons b bs =>
    conv_lhs => rw [mswrite.eq_def]
    rw [if_pos (by omega : (4 : Nat) ≤ lb.length), if_pos he]

theorem ms_rl_stuck (lb mb : List Nat) (ml : Nat) (ob : List Nat) (buf : List Nat)
    (h4 : 4 ≤ lb.length) (he : lb.length ≠ 4) :
    mswrite ⟨.ReadingLen, lb, mb, ml, ob⟩ buf = ⟨.ReadingLen, lb, mb, ml, ob⟩ := by
  cases buf with
  | nil => exact mswrite_nil _
  | cons b bs =>
    conv_lhs => rw [mswrite.eq_def]
    rw [if_pos h4, if_neg he]

theorem ms_rl_fill (lb mb : List Nat) (ml : Nat) (ob : List Nat) (buf : List Nat)
    (hne : buf ≠ []) (h : lb.length < 4) :
    mswrite ⟨.ReadingLen, lb, mb, ml, ob⟩ buf =
      (let tk := min (4 - lb.length) buf.length
       let lb2 := lb ++ buf.take tk
       let rest := buf.drop tk
       if lb2.length = 4 then
         if fromLE4 lb2 = 0 then mswrite ⟨.Data, lb2, [], fromLE4 lb2, ob⟩ rest
         else mswrite ⟨.ReadingMeta, lb2, [], fromLE4 lb2, ob⟩ rest
       else mswrite ⟨.ReadingLen, lb2, mb, ml, ob⟩ rest) := by
  cases buf with
  | nil => exact absurd rfl hne
  | cons b bs =>
    conv_lhs => rw [mswrite.eq_def]
    rw [if_neg (by omega : ¬ (4 : Nat) ≤ lb.length)]

theorem ms_rm_trans (lb mb : List Nat) (ml : Nat) (ob : List Nat) (buf : List Nat)
    (hne : buf ≠ []) (he : mb.length = ml) :
    mswrite ⟨.ReadingMeta, lb, mb, ml, ob⟩ buf =
      mswrite ⟨.Data, lb, mb, ml, ob⟩ buf := by
  cases buf with
  | nil => exact absurd rfl hne
  | cons b bs =>
    conv_lhs => rw [mswrite.eq_def]
    rw [if_pos (by omega : ml ≤ mb.length), if_pos he]

theorem ms_rm_stuck (lb mb : List Nat) (ml : Nat) (ob : List Nat) (buf : List Nat)
    (h4 : ml ≤ mb.length) (he : mb.length ≠ ml) :
    mswrite ⟨.ReadingMeta, lb, mb, ml, ob⟩ buf = ⟨.ReadingMeta, lb, mb, ml, ob⟩ := by
  cases buf with
  | nil => exact mswrite_nil _
  | cons b bs =>
    conv_lhs => rw [mswrite.eq_def]
    rw [if_pos h4, if_neg he]

theorem ms_rm_fill (lb mb : List Nat) (ml : Nat) (ob : List Nat) (buf : List Nat)
    (hne : buf ≠ []) (h : mb.length < ml) :
    mswrite ⟨.ReadingMeta, lb, mb, ml, ob⟩ buf =
      (let tk := min (ml - mb.length) buf.length
       let mb2 := mb ++ buf.take tk
       let rest := buf.drop tk
       if mb2.length = ml then mswrite ⟨.Data, lb, mb2, ml, ob⟩ rest
       else mswrite ⟨.ReadingMeta, lb, mb2, ml, ob⟩ rest) := by
  cases buf with
  | nil => exact absurd rfl hne
  | cons b bs =>
    conv_lhs => rw [mswrite.eq_def]
    rw [if_neg (by omega : ¬ ml ≤ mb.length)]

theorem mswrite_append_aux (k : Nat) :
    ∀ (st : SplitState) (lb mb : List Nat) (ml : Nat) (ob : List Nat) (xs ys : List Nat),
      3 * xs.length + stRank st ≤ k →
      mswrite ⟨st, lb, mb, ml, ob⟩ (xs ++ ys) = mswrite (mswrite ⟨st, lb, mb, ml, ob⟩ xs) ys := by
  induction k with
  | zero =>
    intro st lb mb ml ob xs ys hk
    have hxs : xs = [] := by
      cases xs with
      | nil => rfl
      | cons a as => simp [stRank] at hk
    subst hxs
    simp [mswrite_nil]
  | succ k ih =>
    intro st lb mb ml ob xs ys hk
    rcases xs with _ | ⟨x, xs'⟩
    · simp [mswrite_nil]
    rcases ys with _ | ⟨y, ys'⟩
    · simp [mswrite_nil]
    have hne1 : (x :: xs') ≠ [] := List.cons_ne_nil x xs'
    have hne2 : (y :: ys') ≠ [] := List.cons_ne_nil y ys'
    have hne12 : (x :: xs') ++ (y :: ys') ≠ [] := by simp
    generalize hl1 : (x :: xs') = l1 at *
    generalize hl2 : (y :: ys') = l2 at *
    have hlen1 : 1 ≤ l1.length := by rw [← hl1]; simp
    have hlen2 : 1 ≤ l2.length := by rw [← hl2]; simp
    have hk1 : 3 * l1.length + stRank st ≤ k + 1 := hk
    cases st with
    | Data =>
      rw [ms_data_step _ _ _ _ _ hne12, ms_data_step _ _ _ _ _ hne1,
        ms_data_step _ _ _ _ _ hne2]
      simp
    | ReadingLen =>
      rcases Nat.lt_or_ge lb.length 4 with h4 | h4
      · -- fill iteration
        rw [ms_rl_fill lb mb ml ob (l1 ++ l2) hne12 h4, ms_rl_fill lb mb ml ob l1 hne1 h4]
        simp only []
        rcases le_or_lt (4 - lb.length) l1.length with hle | hlt
        · -- the whole batch comes out of l1
          have h1 : min (4 - lb.length) (l1 ++ l2).length = 4 - lb.length := by
            simp only [List.length_append]; omega
          have h2 : min (4 - lb.length) l1.length = 4 - lb.length := by omega
          rw [h1, h2, List.take_append_eq_append_take, List.drop_append_eq_append_drop,
            show 4 - lb.length - l1.length = 0 by omega]
          simp only [List.take_zero, List.append_nil, List.drop_zero]
          split_ifs with hc1 hc2
          · apply ih
            simp only [stRank, List.length_drop]
            have hrl : stRank SplitState.ReadingLen = 2 := rfl
            rw [hrl] at hk1
            omega
          · apply ih
            simp only [stRank, List.length_drop]
            have hrl : stRank SplitState.ReadingLen = 2 := rfl
            rw [hrl] at hk1
            omega
          · apply ih
            simp only [stRank, List.length_drop]
            have hrl : stRank SplitState.ReadingLen = 2 := rfl
            rw [hrl] at hk1
            omega
        · -- l1 is consumed whole without reaching four bytes
          have h2 : min (4 - lb.length) l1.length = l1.length := by omega
          rw [h2, List.take_length, List.drop_length]
          rw [if_neg (by simp only [List.length_append]; omega :
            ¬ (lb ++ l1).length = 4)]
          rw [mswrite_nil]
          rw [ms_rl_fill (lb ++ l1) mb ml ob l2 hne2
            (by simp only [List.length_append]; omega)]
          simp only []
          have e1 : min (4 - lb.length) (l1 ++ l2).length
              = l1.length + min (4 - (lb ++ l1).length) l2.length := by
            simp only [List.length_append]; omega
          rw [e1, List.take_append_eq_append_take, List.drop_append_eq_append_drop,
            List.take_of_length_le (by omega), Nat.add_sub_cancel_left,
            List.drop_of_length_le (by omega)]
          simp only [List.append_assoc, List.nil_append]
      · -- at least four bytes buffered already
        by_cases he : lb.length = 4
        · rw [ms_rl_trans lb mb ml ob (l1 ++ l2) hne12 he,
            ms_rl_trans lb mb ml ob l1 hne1 he]
          by_cases hL : fromLE4 lb = 0
          · rw [if_pos hL, if_pos hL]
            apply ih
            have hrl : stRank SplitState.ReadingLen = 2 := rfl
            rw [hrl] at hk1
            simp only [stRank]
            omega
          · rw [if_neg hL, if_neg hL]
            apply ih
            have hrl : stRank SplitState.ReadingLen = 2 := rfl
            rw [hrl] at hk1
            simp only [stRank]
            omega
        · rw [ms_rl_stuck lb mb ml ob (l1 ++ l2) h4 he, ms_rl_stuck lb mb ml ob l1 h4 he,
            ms_rl_stuck lb mb ml ob l2 h4 he]
    | ReadingMeta =>
      rcases Nat.lt_or_ge mb.length ml with h4 | h4
      · rw [ms_rm_fill lb mb ml ob (l1 ++ l2) hne12 h4, ms_rm_fill lb mb ml ob l1 hne1 h4]
        simp only []
        rcases le_or_lt (ml - mb.length) l1.length with hle | hlt
        · have h1 : min (ml - mb.length) (l1 ++ l2).length = ml - mb.length := by
            simp only [List.length_append]; omega
          have h2 : min (ml - mb.length) l1.length = ml - mb.length := by omega
          rw [h1, h2, List.take_append_eq_append_take, List.drop_append_eq_append_drop,
            show ml - mb.length - l1.length = 0 by omega]
          simp only [List.take_zero, List.append_nil, List.drop_zero]
          split_ifs with hc1
          · apply ih
            simp only [stRank, List.length_drop]
            have hrm : stRank SplitState.ReadingMeta = 1 := rfl
            rw [hrm] at hk1
            omega
          · apply ih
            simp only [stRank, List.length_drop]
            have hrm : stRank SplitState.ReadingMeta = 1 := rfl
            rw [hrm] at hk1
            omega
        · have h2 : min (ml - mb.length) l1.length = l1.length := by omega
          rw [h2, List.take_length, List.drop_length]
          rw [if_neg (by simp only [List.length_append]; omega :
            ¬ (mb ++ l1).length = ml)]
          rw [mswrite_nil]
          rw [ms_rm_fill lb (mb ++ l1) ml ob l2 hne2
            (by simp only [List.length_append]; omega)]
          simp only []
          have e1 : min (ml - mb.length) (l1 ++ l2).length
              = l1.length + min (ml - (mb ++ l1).length) l2.length := by
            simp only [List.length_append]; omega
          rw [e1, List.take_append_eq_append_take, List.drop_append_eq_append_drop,
            List.take_of_length_le (by omega), Nat.add_sub_cancel_left,
            List.drop_of_length_le (by omega)]
          simp only [List.append_assoc, List.nil_append]
      · by_cases he : mb.length = ml
        · rw [ms_rm_trans lb mb ml ob (l1 ++ l2) hne12 he, ms_rm_trans lb mb ml ob l1 hne1 he]
          apply ih
          have hrm : stRank SplitState.ReadingMeta = 1 := rfl
          rw [hrm] at hk1
          simp only [stRank]
          omega
        · rw [ms_rm_stuck lb mb ml ob (l1 ++ l2) h4 he, ms_rm_stuck lb mb ml ob l1 h4 he,
            ms_rm_stuck lb mb ml ob l2 h4 he]

theorem mswrite_append (w : SplitW) (xs ys : List Nat) :
    mswrite w (xs ++ ys) = mswrite (mswrite w xs) ys := by
  obtain ⟨st, lb, mb, ml, ob⟩ := w
  exact mswrite_append_aux (3 * xs.length + stRank st) st lb mb ml ob xs ys le_rfl


/-- Feeding spans one after the other equals feeding their
concatenation, from any starting state. -/
theorem mswrite_foldl (spans : List (List Nat)) :
    ∀ w : SplitW, List.foldl mswrite w spans = mswrite w spans.flatten := by
  induction spans with
  | nil => intro w; simp [mswrite_nil]
  | cons s rest ih =>
    intro w
    rw [List.foldl_cons, ih (mswrite w s), List.flatten_cons, mswrite_append]

-- ─── C3: seq_label / parse_seq_label ───────────────────────────────────

/-- C3: for every index in [0, 456975], `parse_seq_label` inverts
`seq_label`; every larger index fails with `SeqOverflow`; and
`parse_seq_label` accepts exactly the byte strings of four lowercase
letters a-z. -/
theorem c3_seq_label_roundtrip :
    (∀ i : Nat, i ≤ 456975 →
      seq_label i = .ok (labelChars i) ∧ parse_seq_label (labelChars i) = some i) ∧
    (∀ i : Nat, 456975 < i → seq_label i = .error (.SeqOverflow i)) ∧
    (∀ bs : List Nat, (parse_seq_label bs).isSome ↔
      (bs.length = 4 ∧ ∀ b ∈ bs, 97 ≤ b ∧ b ≤ 122)) := by
  refine ⟨fun i hi => ⟨?_, ?_⟩, fun i hi => ?_, fun bs => ?_⟩
  · rw [seq_label, if_neg (by omega)]
  · rw [labelChars, parse_seq_label]
    rw [if_neg (by omega), if_neg (by omega)]
    rw [Option.some_inj]
    omega
  · rw [seq_label, if_pos hi]
  · rcases bs with _ | ⟨a, _ | ⟨b, _ | ⟨c, _ | ⟨d, _ | ⟨e, rest⟩⟩⟩⟩⟩
    · simp [parse_seq_label]
    · simp [parse_seq_label]
    · simp [parse_seq_label]
    · simp [parse_seq_label]
    · rw [parse_seq_label]
      constructor
      · intro h
        split_ifs at h with h1 h2
        · simp at h
        · simp at h
        · refine ⟨rfl, ?_⟩
          intro x hx
          simp only [List.mem_cons, List.not_mem_nil, or_false] at hx
          rcases hx with rfl | rfl | rfl | rfl <;> omega
      · rintro ⟨-, hall⟩
        have ha := hall a (by simp)
        have hb := hall b (by simp)
        have hc := hall c (by simp)
        have hd := hall d (by simp)
        rw [if_neg (by omega), if_neg (by omega)]
        simp
    · simp only [parse_seq_label, List.length_cons]
      constructor
      · intro h
        simp at h
      · rintro ⟨h, -⟩
        omega

/-- Witness for C3 at concrete inputs. -/
theorem c3_seq_label_roundtrip_witness :
    seq_label 456975 = .ok [122, 122, 122, 122] ∧
      parse_seq_label [122, 122, 122, 122] = some 456975 ∧
      seq_label 456976 = .error (.SeqOverflow 456976) ∧
      (parse_seq_label [97, 98, 99]).isSome = false := by
  have h1 := (c3_seq_label_roundtrip.1 456975 (by norm_num))
  have h2 := c3_seq_label_roundtrip.2.1 456976 (by norm_num)
  have h3 := (c3_seq_label_roundtrip.2.2 [97, 98, 99]).not
  refine ⟨?_, ?_, h2, ?_⟩
  · have := h1.1
    rw [show labelChars 456975 = [122, 122, 122, 122] from by decide] at this
    exact this
  · have := h1.2
    rw [show labelChars 456975 = [122, 122, 122, 122] from by decide] at this
    exact this
  · have := h3.mpr (by intro h; exact absurd h.1 (by norm_num))
    simpa using this

-- ─── C9: the metadata demultiplexer is span-insensitive ────────────────

/-- C9: feeding a plaintext to `MetadataSplitWriter::write` as any list
of spans (one call per span, including one byte per span) leaves the
writer in exactly the state reached by one call on the whole sequence;
in particular the extracted metadata bytes and the bytes forwarded to
the downstream sink coincide. -/
theorem c9_split_writer_span_insensitive (spans : List (List Nat)) :
    List.foldl mswrite msNew spans = mswrite msNew spans.flatten ∧
    take_metadata_bytes (List.foldl mswrite msNew spans)
      = take_metadata_bytes (mswrite msNew spans.flatten) ∧
    (List.foldl mswrite msNew spans).outBytes = (mswrite msNew spans.flatten).outBytes := by
  refine ⟨mswrite_foldl spans msNew, ?_, ?_⟩ <;> rw [mswrite_foldl spans msNew]

-- ─── Lemmas: serialization round-trips ─────────────────────────────────

theorem length_toLE8 (n : Nat) : (toLE8 n).length = 8 := rfl

theorem length_toLE4 (n : Nat) : (toLE4 n).length = 4 := rfl

theorem fromLE8_toLE8 (n : Nat) (h : n < 2 ^ 64) : fromLE8 (toLE8 n) = n := by
  simp only [toLE8, fromLE8, List.getD_cons_zero, List.getD_cons_succ]
  omega

theorem fromLE4_toLE4 (n : Nat) (h : n < 2 ^ 32) : fromLE4 (toLE4 n) = n := by
  simp only [toLE4, fromLE4, List.getD_cons_zero, List.getD_cons_succ]
  omega

theorem readN8_cons (n : Nat) (rest : List Nat) (h : n < 2 ^ 64) :
    readN8 (toLE8 n ++ rest) = some (n, rest) := by
  rw [readN8, if_pos (by simp [length_toLE8])]
  rw [List.take_append_eq_append_take, List.drop_append_eq_append_drop]
  rw [length_toLE8, List.take_of_length_le (by rw [length_toLE8]),
    List.drop_of_length_le (by rw [length_toLE8])]
  simp [fromLE8_toLE8 n h]

theorem readBytesF_enc (bs rest : List Nat) (h : bs.length < 2 ^ 64) :
    readBytesF (encBytesF bs ++ rest) = some (bs, rest) := by
  rw [readBytesF, encBytesF, List.append_assoc, readN8_cons _ _ h]
  simp

theorem readN8_self (n : Nat) (h : n < 2 ^ 64) : readN8 (toLE8 n) = some (n, []) := by
  have := readN8_cons n [] h
  simpa using this

theorem decMeta_encMeta (m : ChunkMetadata) (h : MetaBounded m) :
    decMeta (encMeta m) = some m := by
  obtain ⟨h1, h2, h3, h4, h5, h6, h7, h8, h9, h10, h11⟩ := h
  rw [decMeta, encMeta]
  simp only [List.append_assoc]
  rw [readN8_cons _ _ h1]; dsimp only
  rw [readBytesF_enc _ _ h2]; dsimp only
  rw [readBytesF_enc _ _ h3]; dsimp only
  rw [readN8_cons _ _ h4]; dsimp only
  rw [readBytesF_enc _ _ h5]; dsimp only
  rw [readN8_cons _ _ h6]; dsimp only
  rw [readN8_cons _ _ h7]; dsimp only
  rw [readN8_cons _ _ h8]; dsimp only
  rw [readN8_cons _ _ h9]; dsimp only
  rw [readN8_cons _ _ h10]; dsimp only
  rw [readN8_self _ h11]
  simp

-- ─── Lemmas: the modelled cipher inverts itself ────────────────────────

theorem cipherApply_involutive (key iv data : List Nat) :
    cipherApply key iv (cipherApply key iv data) = data := by
  simp only [cipherApply, List.map_map]
  have : ((fun b => b ^^^ keystreamByte key iv) ∘ fun b => b ^^^ keystreamByte key iv)
      = id := by
    funext b
    simp [Nat.xor_cancel_right]
  rw [this, List.map_id]

-- ─── Lemmas: running the splitter over one framed plaintext ────────────

theorem ms_data_all (lb mb2 : List Nat) (ml : Nat) (ob d : List Nat) :
    mswrite ⟨.Data, lb, mb2, ml, ob⟩ d = ⟨.Data, lb, mb2, ml, ob ++ d⟩ := by
  cases d with
  | nil => simp [mswrite_nil]
  | cons x xs => exact ms_data_step _ _ _ _ _ (List.cons_ne_nil x xs)

theorem mswrite_frame (mb d : List Nat) (hL : mb.length < 2 ^ 32) :
    mswrite msNew (toLE4 mb.length ++ mb ++ d) =
      ⟨.Data, toLE4 mb.length, mb, mb.length, d⟩ := by
  have h4 : (toLE4 mb.length).length = 4 := rfl
  have hfrom := fromLE4_toLE4 mb.length hL
  have hne : toLE4 mb.length ≠ [] := by
    intro hcon
    have hlen := congrArg List.length hcon
    rw [h4] at hlen
    simp at hlen
  have s1 : mswrite msNew (toLE4 mb.length) =
      (if mb.length = 0 then (⟨.Data, toLE4 mb.length, [], mb.length, []⟩ : SplitW)
       else ⟨.ReadingMeta, toLE4 mb.length, [], mb.length, []⟩) := by
    rw [show msNew = (⟨.ReadingLen, [], [], 0, []⟩ : SplitW) from rfl]
    rw [ms_rl_fill [] [] 0 [] (toLE4 mb.length) hne (by simp)]
    simp only [List.length_nil, Nat.sub_zero, h4, Nat.min_self, List.nil_append]
    rw [List.take_of_length_le (le_of_eq h4), List.drop_of_length_le (le_of_eq h4)]
    rw [if_pos h4, hfrom]
    by_cases h0 : mb.length = 0
    · rw [if_pos h0, if_pos h0, mswrite_nil]
    · rw [if_neg h0, if_neg h0, mswrite_nil]
  rw [mswrite_append, mswrite_append, s1]
  by_cases h0 : mb.length = 0
  · have hmb : mb = [] := List.length_eq_zero.mp h0
    rw [if_pos h0, hmb, mswrite_nil, ms_data_all]
    simp [hmb]
  · rw [if_neg h0]
    have hmbne : mb ≠ [] := by
      intro hcon
      exact h0 (by rw [hcon]; rfl)
    have s2 : mswrite ⟨.ReadingMeta, toLE4 mb.length, [], mb.length, []⟩ mb =
        ⟨.Data, toLE4 mb.length, mb, mb.length, []⟩ := by
      rw [ms_rm_fill (toLE4 mb.length) [] mb.length [] mb hmbne (by simpa using Nat.pos_of_ne_zero h0)]
      simp only [List.length_nil, Nat.sub_zero, Nat.min_self, List.nil_append]
      rw [List.take_of_length_le le_rfl, List.drop_of_length_le le_rfl]
      rw [if_pos rfl, mswrite_nil]
    rw [s2, ms_data_all]
    simp

-- ─── Lemmas: unpack inverts pack, chunk by chunk ───────────────────────

theorem processChunk_packChunk (md5fn saltf ivf : List Nat → List Nat) (a : PackArgs)
    (i : Nat) (hmb : (encMeta (packMeta md5fn a i)).length < 2 ^ 32) :
    processChunk a.password (packChunk md5fn saltf ivf a i) =
      .ok (encMeta (packMeta md5fn a i),
        (a.content.drop (i * a.split_size)).take (chunkLen a.content.length a.split_size i)) := by
  rw [processChunk, packChunk]
  dsimp only
  rw [cipherApply_involutive, chunkPlain]
  rw [Nat.mod_eq_of_lt hmb, mswrite_frame _ _ hmb]
  rfl

theorem contAux_range (j : Nat) : ∀ i : Nat, contAux i (List.range' i j) = .ok () := by
  induction j with
  | zero => intro i; rfl
  | succ j ih =>
    intro i
    rw [List.range'_succ, contAux]
    rw [if_neg (by omega)]
    exact ih (i + 1)

theorem unpackChunksAux_pack (md5fn saltf ivf : List Nat → List Nat) (a : PackArgs)
    (hb : ∀ i, i < totalChunksOf a.content.length a.split_size →
      MetaBounded (packMeta md5fn a i))
    (hlen : ∀ i, i < totalChunksOf a.content.length a.split_size →
      (encMeta (packMeta md5fn a i)).length < 2 ^ 32) :
    ∀ (j k : Nat), k + j ≤ totalChunksOf a.content.length a.split_size →
      unpackChunksAux a.password a.original_name (fileMd5 md5fn a) k
        ((List.range' k j).map (packChunk md5fn saltf ivf a)) =
      .ok (((List.range' k j).map (fun i =>
        (a.content.drop (i * a.split_size)).take
          (chunkLen a.content.length a.split_size i))).flatten) := by
  intro j
  induction j with
  | zero => intro k hk; rfl
  | succ j ih =>
    intro k hk
    rw [List.range'_succ, List.map_cons, List.map_cons, List.flatten_cons]
    rw [unpackChunksAux]
    rw [processChunk_packChunk md5fn saltf ivf a k (hlen k (by omega))]
    dsimp only
    rw [decMeta_encMeta _ (hb k (by omega))]
    dsimp only
    rw [if_neg (by simp [packMeta])]
    rw [if_neg (by simp [packMeta])]
    rw [ih (k + 1) (by omega)]

-- ─── Lemmas: the chunk slices rebuild the file ─────────────────────────

theorem one_le_totalChunks (S P : Nat) (hP : 1 ≤ P) (hnov : S + P - 1 < 2 ^ 64) :
    1 ≤ totalChunksOf S P := by
  rw [totalChunksOf]
  split_ifs with h0
  · exact le_rfl
  · rw [Nat.mod_eq_of_lt hnov]
    have h1 : P ≤ S + P - 1 := by omega
    calc 1 = P / P := (Nat.div_self (by omega)).symm
    _ ≤ (S + P - 1) / P := Nat.div_le_div_right h1

theorem totalChunks_mul_ge (S P : Nat) (hP : 1 ≤ P) (hnov : S + P - 1 < 2 ^ 64) :
    S ≤ totalChunksOf S P * P := by
  rw [totalChunksOf]
  split_ifs with h0
  · omega
  · rw [Nat.mod_eq_of_lt hnov]
    have hdm := Nat.div_add_mod (S + P - 1) P
    rw [Nat.mul_comm] at hdm
    have hmod := Nat.mod_lt (S + P - 1) (show 0 < P by omega)
    omega

theorem mul_lt_of_lt_totalChunks (S P n : Nat) (hP : 1 ≤ P) (hS : 1 ≤ S)
    (hn : n < totalChunksOf S P) : n * P < S := by
  rw [totalChunksOf, if_neg (by omega)] at hn
  rcases Nat.lt_or_ge (S + P - 1) (2 ^ 64) with hnov | hov
  · rw [Nat.mod_eq_of_lt hnov] at hn
    have hdm := Nat.div_add_mod (S + P - 1) P
    rw [Nat.mul_comm] at hdm
    have hmod := Nat.mod_lt (S + P - 1) (show 0 < P by omega)
    have h1 : (n + 1) * P ≤ (S + P - 1) / P * P := Nat.mul_le_mul_right P hn
    have h2 : (n + 1) * P = n * P + P := by ring
    omega
  · rcases Nat.lt_or_ge S (2 ^ 64) with hSlt | hSge
    · -- a wrapping u64 configuration: the wrapped chunk count is 0, so
      -- the hypothesis n < total is impossible
      have hM : (S + P - 1) % 2 ^ 64 < P := by
        rcases Nat.lt_or_ge P (2 ^ 64) with hPlt | hPge
        · have hsub : (S + P - 1) % 2 ^ 64 = S + P - 1 - 2 ^ 64 := by
            rw [Nat.mod_eq_sub_mod hov, Nat.mod_eq_of_lt (by omega)]
          omega
        · have := Nat.mod_lt (S + P - 1) (show 0 < 2 ^ 64 by positivity)
          omega
      rw [Nat.div_eq_of_lt hM] at hn
      omega
    · -- S at least 2^64: any count the wrapped numerator supports keeps
      -- n * P below 2^64 and hence below S
      have hM := Nat.mod_lt (S + P - 1) (show 0 < 2 ^ 64 by positivity)
      have h1 : (n + 1) * P ≤ (S + P - 1) % 2 ^ 64 / P * P := Nat.mul_le_mul_right P hn
      have h2 : (S + P - 1) % 2 ^ 64 / P * P ≤ (S + P - 1) % 2 ^ 64 :=
        Nat.div_mul_le_self _ _
      have h3 : (n + 1) * P = n * P + P := by ring
      omega

theorem slices_flatten (c : List Nat) (P : Nat) (hP : 1 ≤ P) :
    ∀ n : Nat,
      (((List.range n).map (fun i => (c.drop (i * P)).take (chunkLen c.length P i))).flatten)
        = c.take (min (n * P) c.length) := by
  intro n
  induction n with
  | zero => simp
  | succ n ih =>
    rw [List.range_succ, List.map_append, List.flatten_append, ih]
    simp only [List.map_cons, List.map_nil, List.flatten_cons, List.flatten_nil,
      List.append_nil]
    by_cases h0 : c.length = 0
    · have hc : c = [] := List.length_eq_zero.mp h0
      simp [hc]
    · rw [chunkLen, if_neg h0]
      by_cases hge : c.length ≤ n * P
      · have e1 : min (n * P) c.length = c.length := by omega
        have e2 : min ((n + 1) * P) c.length = c.length := by
          have : n * P ≤ (n + 1) * P := Nat.mul_le_mul_right P (by omega)
          omega
        rw [e1, e2, List.take_length]
        rw [List.drop_of_length_le hge]
        have e3 : min P (c.length - n * P) = 0 := by omega
        simp [e3]
      · have hlt : n * P < c.length := by omega
        have e1 : min (n * P) c.length = n * P := by omega
        have e2 : min ((n + 1) * P) c.length = n * P + min P (c.length - n * P) := by
          have h2 : (n + 1) * P = n * P + P := by ring
          omega
        rw [e1, e2, List.take_add]

-- ─── Pack then unpack restores the file (no-overflow regime) ───────────

/-- When the `u64` ceil-division of `pack_file` does not wrap
(`S + P - 1 < 2^64`, true for every configuration except `--size 0`
with a file of 2 or more bytes), unpacking the chunk group produced by
`pack_file` with the same key restores the original byte content under
the original name, and when hash computation was enabled the declared
hash is the digest of the content. -/
theorem pack_unpack_roundtrip_of_no_overflow (md5fn saltf ivf : List Nat → List Nat)
    (a : PackArgs)
    (hP : 1 ≤ a.split_size)
    (hnov : a.content.length + a.split_size - 1 < 2 ^ 64)
    (hb : ∀ i, i < totalChunksOf a.content.length a.split_size →
      MetaBounded (packMeta md5fn a i))
    (hlen : ∀ i, i < totalChunksOf a.content.length a.split_size →
      (encMeta (packMeta md5fn a i)).length < 2 ^ 32) :
    unpack_file_group a.password md5fn (pack_file md5fn saltf ivf a) =
      .ok (a.original_name, a.content) ∧
    (a.use_md5 = true → (packMeta md5fn a 0).file_md5 = md5fn a.content) := by
  have hT1 : 1 ≤ totalChunksOf a.content.length a.split_size :=
    one_le_totalChunks _ _ hP hnov
  rcases Nat.exists_eq_add_of_le hT1 with ⟨t, ht⟩
  rw [Nat.add_comm] at ht
  have hrange : List.range (totalChunksOf a.content.length a.split_size)
      = 0 :: List.range' 1 (totalChunksOf a.content.length a.split_size - 1) := by
    rw [List.range_eq_range', ht, List.range'_succ]
    simp
  constructor
  case right => intro h; simp [packMeta, fileMd5, h]
  have hflat : ((List.range (totalChunksOf a.content.length a.split_size)).map (fun i =>
      (a.content.drop (i * a.split_size)).take
        (chunkLen a.content.length a.split_size i))).flatten = a.content := by
    rw [slices_flatten a.content a.split_size hP]
    have hge := totalChunks_mul_ge a.content.length a.split_size hP hnov
    rw [min_eq_right hge]
    exact List.take_length a.content
  rw [hrange, List.map_cons, List.flatten_cons] at hflat
  rw [pack_file, hrange, List.map_cons, unpack_file_group]
  have hcomp : (ChunkFileM.seq ∘ packChunk md5fn saltf ivf a) = id := funext fun i => rfl
  rw [List.map_cons, List.map_map, hcomp, List.map_id]
  rw [show ChunkFileM.seq (packChunk md5fn saltf ivf a 0) = 0 from rfl]
  rw [show (0 : Nat) :: List.range' 1 (totalChunksOf a.content.length a.split_size - 1)
      = List.range' 0 (totalChunksOf a.content.length a.split_size) from by
    rw [ht, List.range'_succ]
    simp]
  rw [contAux_range _ 0]
  dsimp only
  rw [processChunk_packChunk md5fn saltf ivf a 0 (hlen 0 (by omega))]
  dsimp only
  rw [decMeta_encMeta _ (hb 0 (by omega))]
  dsimp only
  rw [if_neg (by simp [packMeta])]
  dsimp only [packMeta]
  rw [unpackChunksAux_pack md5fn saltf ivf a hb hlen
    (totalChunksOf a.content.length a.split_size - 1) 1 (by omega)]
  dsimp only
  rw [hflat]
  rw [if_neg (by rw [fileMd5]; split_ifs with h <;> simp)]
  rw [if_neg (by simp)]

/-- Concrete instance of the no-overflow round trip: a 3-byte file
packed with split size 2 (two chunks), hashing enabled, restores
byte-identically. -/
theorem pack_unpack_roundtrip_example :
    unpack_file_group [107] (fun l => l ++ [1])
      (pack_file (fun l => l ++ [1]) (fun _ => [3]) (fun _ => [4])
        ⟨[10, 20, 30], [102], [107], 2, true, [103], 5, 420⟩) =
      .ok ([102], [10, 20, 30]) ∧
    ((⟨[10, 20, 30], [102], [107], 2, true, [103], 5, 420⟩ : PackArgs).use_md5 = true →
      (packMeta (fun l => l ++ [1])
        ⟨[10, 20, 30], [102], [107], 2, true, [103], 5, 420⟩ 0).file_md5
        = (fun l => l ++ [1]) [10, 20, 30]) :=
  pack_unpack_roundtrip_of_no_overflow (fun l => l ++ [1]) (fun _ => [3]) (fun _ => [4])
    ⟨[10, 20, 30], [102], [107], 2, true, [103], 5, 420⟩ (by decide) (by decide)
    (by decide) (by decide)

-- ─── Chunk count, offsets and sizes (no-overflow regime) ───────────────

/-- When the `u64` ceil-division does not wrap, `pack_file` produces
`max 1 ⌈S/P⌉` chunks; chunk i's embedded metadata (pack embeds
`encMeta (packMeta md5fn a i)` into chunk i by construction) declares
`chunk_offset = i·P` and `chunk_data_size = min P (S − i·P)`; a
zero-byte file yields exactly one chunk of declared size 0. -/
theorem chunk_layout_of_no_overflow (md5fn saltf ivf : List Nat → List Nat) (a : PackArgs)
    (hP : 1 ≤ a.split_size)
    (hnov : a.content.length + a.split_size - 1 < 2 ^ 64) :
    (pack_file md5fn saltf ivf a).length
        = max 1 ((a.content.length + a.split_size - 1) / a.split_size) ∧
    (∀ i, i < (pack_file md5fn saltf ivf a).length →
      (packMeta md5fn a i).chunk_offset = i * a.split_size ∧
      (packMeta md5fn a i).chunk_data_size
        = min a.split_size (a.content.length - i * a.split_size)) ∧
    (a.content.length = 0 → (pack_file md5fn saltf ivf a).length = 1 ∧
      (packMeta md5fn a 0).chunk_data_size = 0) := by
  have hlen : (pack_file md5fn saltf ivf a).length
      = totalChunksOf a.content.length a.split_size := by
    rw [pack_file, List.length_map, List.length_range]
  refine ⟨?_, ?_, ?_⟩
  · rw [hlen, totalChunksOf]
    split_ifs with h0
    · rw [h0]
      have : (0 + a.split_size - 1) / a.split_size = 0 :=
        Nat.div_eq_of_lt (by omega)
      rw [this]
      omega
    · rw [Nat.mod_eq_of_lt hnov]
      have h1 : 1 ≤ (a.content.length + a.split_size - 1) / a.split_size := by
        have h2 := one_le_totalChunks a.content.length a.split_size hP hnov
        rw [totalChunksOf, if_neg h0, Nat.mod_eq_of_lt hnov] at h2
        exact h2
      omega
  · intro i hi
    refine ⟨rfl, ?_⟩
    show chunkLen a.content.length a.split_size i
      = min a.split_size (a.content.length - i * a.split_size)
    rw [chunkLen]
    split_ifs with h0
    · rw [h0]
      simp
    · rfl
  · intro h0
    refine ⟨?_, ?_⟩
    · rw [hlen, totalChunksOf, if_pos h0]
    · show chunkLen a.content.length a.split_size 0 = 0
      rw [chunkLen, if_pos h0]

/-- Concrete instance of the no-overflow layout: S = 3, P = 2 gives 2
chunks, and the zero-byte case gives one chunk of size 0. -/
theorem chunk_layout_example :
    ((pack_file (fun _ => []) (fun _ => [3]) (fun _ => [4])
        ⟨[10, 20, 30], [102], [107], 2, false, [103], 5, 420⟩).length
      = max 1 ((3 + 2 - 1) / 2) ∧ True) ∧
    (pack_file (fun _ => []) (fun _ => [3]) (fun _ => [4])
        ⟨[], [102], [107], 2, false, [103], 5, 420⟩).length = 1 := by
  constructor
  · refine ⟨?_, trivial⟩
    have h := (chunk_layout_of_no_overflow (fun _ => []) (fun _ => [3]) (fun _ => [4])
      ⟨[10, 20, 30], [102], [107], 2, false, [103], 5, 420⟩ (by decide) (by decide)).1
    exact h
  · have h := (chunk_layout_of_no_overflow (fun _ => []) (fun _ => [3]) (fun _ => [4])
      ⟨[], [102], [107], 2, false, [103], 5, 420⟩ (by decide) (by decide)).2.2 (by decide)
    exact h.1

-- ─── C7: a gap in the sequence fails with the first absent label ───────

theorem contAux_gap :
    ∀ (k : Nat) (l : List Nat) (i : Nat),
      k < l.length →
      (∀ j, j < k → l.getD j 0 = i + j) →
      i + k < l.getD k 0 →
      l.getD k 0 ≤ 456975 →
      contAux i l = .error (.MissingChunk (labelChars (i + k))) := by
  intro k
  induction k with
  | zero =>
    intro l i hk hpre hgt hb
    rcases l with _ | ⟨s, rest⟩
    · simp at hk
    · simp only [List.getD_cons_zero] at hgt hb
      rw [contAux, if_pos (by omega)]
      rw [seq_label, if_neg (by omega)]
      simp
  | succ k ih =>
    intro l i hk hpre hgt hb
    rcases l with _ | ⟨s, rest⟩
    · simp at hk
    · have hs : s = i := by
        have := hpre 0 (by omega)
        simpa using this
      rw [contAux, if_neg (by simp [hs])]
      have hrec := ih rest (i + 1) (by simpa using hk)
        (fun j hj => by
          have := hpre (j + 1) (by omega)
          simp only [List.getD_cons_succ] at this
          rw [this]
          omega)
        (by
          simp only [List.getD_cons_succ] at hgt
          omega)
        (by simpa using hb)
      rw [hrec]
      have : i + 1 + k = i + (k + 1) := by omega
      rw [this]

/-- C7: `unpack_file_group` checks that the sorted sequence indices form
the exact contiguous range [0, count): a contiguous range passes the
check, and any gap fails with `MissingChunkError` naming the label of
the first absent index (the least index `m` with every smaller index
present and `m` itself absent). -/
theorem c7_missing_chunk (pw : List Nat) (md5fn : List Nat → List Nat)
    (cs : List ChunkFileM) (m : Nat)
    (hsorted : (cs.map ChunkFileM.seq).Pairwise (· < ·))
    (hbound : ∀ s ∈ cs.map ChunkFileM.seq, s ≤ 456975)
    (hm : m < cs.length)
    (hpre : ∀ j, j < m → (cs.map ChunkFileM.seq).getD j 0 = j)
    (hne : (cs.map ChunkFileM.seq).getD m 0 ≠ m) :
    unpack_file_group pw md5fn cs = .error (.MissingChunk (labelChars m)) ∧
    (∀ n, contAux 0 (List.range n) = .ok ()) ∧
    m ∉ cs.map ChunkFileM.seq ∧ (∀ k, k < m → k ∈ cs.map ChunkFileM.seq) := by
  have hlen : (cs.map ChunkFileM.seq).length = cs.length := List.length_map cs ChunkFileM.seq
  have hml : m < (cs.map ChunkFileM.seq).length := by omega
  have hget := List.pairwise_iff_get.mp hsorted
  have hgt : m < (cs.map ChunkFileM.seq).getD m 0 := by
    rcases Nat.eq_zero_or_pos m with h0 | hpos
    · subst h0
      omega
    · have h1 : (cs.map ChunkFileM.seq).getD (m - 1) 0 = m - 1 := hpre (m - 1) (by omega)
      have h2 : (cs.map ChunkFileM.seq).get ⟨m - 1, by omega⟩
          < (cs.map ChunkFileM.seq).get ⟨m, hml⟩ := by
        apply hget
        exact Fin.mk_lt_mk.mpr (by omega)
      rw [← List.getD_eq_get _ 0 (show m - 1 < _ by omega),
        ← List.getD_eq_get _ 0 hml] at h2
      omega
  have hb456 : (cs.map ChunkFileM.seq).getD m 0 ≤ 456975 := by
    apply hbound
    rw [List.getD_eq_get _ 0 hml]
    exact List.get_mem _ _ _
  have hnotmem : m ∉ cs.map ChunkFileM.seq := by
    intro hmem
    rcases List.mem_iff_get.mp hmem with ⟨t, ht⟩
    rcases lt_trichotomy t.val m with hlt | heq | hgt2
    · have h1 := hpre t.val hlt
      rw [List.getD_eq_get _ 0 t.isLt] at h1
      have he : (⟨t.val, t.isLt⟩ : Fin (cs.map ChunkFileM.seq).length) = t := Fin.ext rfl
      rw [he, ht] at h1
      omega
    · have h1 : (cs.map ChunkFileM.seq).getD m 0 = m := by
        rw [List.getD_eq_get _ 0 hml]
        have he : (⟨m, hml⟩ : Fin (cs.map ChunkFileM.seq).length) = t := Fin.ext heq.symm
        rw [he, ht]
      omega
    · have h2 : (cs.map ChunkFileM.seq).get ⟨m, hml⟩ < (cs.map ChunkFileM.seq).get t := by
        apply hget
        exact Fin.mk_lt_mk.mpr (by omega)
      rw [← List.getD_eq_get _ 0 hml] at h2
      rw [ht] at h2
      omega
  refine ⟨?_, ?_, hnotmem, ?_⟩
  · rcases cs with _ | ⟨c0, rest⟩
    · simp at hm
    · rw [unpack_file_group]
      have := contAux_gap m (List.map ChunkFileM.seq (c0 :: rest)) 0 hml
        (fun j hj => by rw [hpre j hj]; omega) (by omega) hb456
      rw [Nat.zero_add] at this
      rw [this]
  · intro n
    rw [List.range_eq_range']
    exact contAux_range n 0
  · intro k hk
    have h1 := hpre k hk
    rw [List.getD_eq_get _ 0 (show k < (cs.map ChunkFileM.seq).length by omega)] at h1
    rw [← h1]
    exact List.get_mem _ _ _

/-- Witness for C7: a 3-chunk group whose middle file is gone (sequence
indices 0 and 2) fails with `MissingChunk "aaab"`. -/
theorem c7_missing_chunk_witness :
    unpack_file_group [107] (fun _ => [])
      [⟨0, ⟨[], [], []⟩, []⟩, ⟨2, ⟨[], [], []⟩, []⟩]
      = .error (.MissingChunk [97, 97, 97, 98]) := by
  have h := (c7_missing_chunk [107] (fun _ => [])
    [⟨0, ⟨[], [], []⟩, []⟩, ⟨2, ⟨[], [], []⟩, []⟩] 1
    (by decide) (by decide) (by decide) (by decide) (by decide)).1
  rw [show labelChars 1 = [97, 97, 97, 98] from by decide] at h
  exact h

-- ─── C5: rollback on pack failure ──────────────────────────────────────

theorem packLoopFS_ok (fail : Option PackFailPoint) (e : Cerr) :
    ∀ (n i : Nat) (created : List Nat) (st : PackFsSt),
      (∀ j, i ≤ j → j < i + n → fail ≠ some (.atCreate j) ∧ fail ≠ some (.afterCreate j)) →
      packLoopFS fail e i n created st
        = (.ok (), created ++ List.range' i n,
            { st with chunks := st.chunks ++ List.range' i n }) := by
  intro n
  induction n with
  | zero => intro i created st hnone; simp [packLoopFS]
  | succ n ih =>
    intro i created st hnone
    rw [packLoopFS]
    rw [if_neg (hnone i le_rfl (by omega)).1]
    rw [if_neg (hnone i le_rfl (by omega)).2]
    rw [ih (i + 1) (created ++ [i]) _ (fun j hj1 hj2 => hnone j (by omega) (by omega))]
    rw [List.range'_succ]
    simp

theorem packLoopFS_fail_atCreate (e : Cerr) :
    ∀ (d n i : Nat) (created : List Nat) (st : PackFsSt),
      d < n →
      packLoopFS (some (.atCreate (i + d))) e i n created st
        = (.error e, created ++ List.range' i d,
            { st with chunks := st.chunks ++ List.range' i d }) := by
  intro d
  induction d with
  | zero =>
    intro n i created st hd
    rcases n with _ | n
    · omega
    · rw [packLoopFS, if_pos (by simp)]
      simp
  | succ d ih =>
    intro n i created st hd
    rcases n with _ | n
    · omega
    · rw [packLoopFS]
      rw [if_neg (by simp)]
      rw [if_neg (by simp)]
      rw [show i + (d + 1) = (i + 1) + d from by omega]
      rw [ih n (i + 1) (created ++ [i]) _ (by omega)]
      rw [List.range'_succ]
      simp

theorem packLoopFS_fail_afterCreate (e : Cerr) :
    ∀ (d n i : Nat) (created : List Nat) (st : PackFsSt),
      d < n →
      packLoopFS (some (.afterCreate (i + d))) e i n created st
        = (.error e, created ++ List.range' i (d + 1),
            { st with chunks := st.chunks ++ List.range' i (d + 1) }) := by
  intro d
  induction d with
  | zero =>
    intro n i created st hd
    rcases n with _ | n
    · omega
    · rw [packLoopFS, if_neg (by simp), if_pos (by simp)]
      simp
  | succ d ih =>
    intro n i created st hd
    rcases n with _ | n
    · omega
    · rw [packLoopFS]
      rw [if_neg (by simp)]
      rw [if_neg (by simp)]
      rw [show i + (d + 1) = (i + 1) + d from by omega]
      rw [ih n (i + 1) (created ++ [i]) _ (by omega)]
      rw [show List.range' i (d + 1 + 1) = i :: List.range' (i + 1) (d + 1) from
        List.range'_succ i (d + 1) 1]
      simp

theorem filter_not_contains_append (xs ys : List Nat) (h : ∀ c ∈ xs, c ∉ ys) :
    (xs ++ ys).filter (fun c => !ys.contains c) = xs := by
  rw [List.filter_append]
  have h1 : xs.filter (fun c => !ys.contains c) = xs := by
    apply List.filter_eq_self.mpr
    intro a ha
    simp [List.elem_eq_mem]
    exact h a ha
  have h2 : ys.filter (fun c => !ys.contains c) = [] := by
    apply List.filter_eq_nil.mpr
    intro a ha
    simp [List.elem_eq_mem, ha]
  rw [h1, h2, List.append_nil]

/-- C5: if any step of the per-chunk loop of `pack_file` fails, every
chunk file created in this invocation is removed, the source file and
the directory's other files are untouched, and the injected error
propagates; when every chunk succeeds, the original is deleted exactly
when the delete flag was requested. -/
theorem c5_pack_rollback (fail : Option PackFailPoint) (e : Cerr) (total : Nat)
    (delete : Bool) (st : PackFsSt)
    (hdisj : ∀ i, i < total → i ∉ st.chunks) :
    (failTriggered fail total → pack_file_fs fail e total delete st = (.error e, st)) ∧
    (¬ failTriggered fail total →
      pack_file_fs fail e total delete st
        = (.ok (), (⟨st.chunks ++ List.range total, st.otherFiles,
            st.sourcePresent && !delete⟩ : PackFsSt))) := by
  constructor
  · intro htrig
    rcases fail with _ | ⟨i⟩ | ⟨i⟩
    · exact absurd htrig (by simp [failTriggered])
    · have hi : i < total := htrig
      rw [pack_file_fs]
      rw [show i = 0 + i from (Nat.zero_add i).symm]
      rw [packLoopFS_fail_atCreate e i total 0 [] st hi]
      dsimp only
      have hfil : (st.chunks ++ List.range' 0 i).filter
          (fun c => !(([] ++ List.range' 0 i : List Nat)).contains c) = st.chunks := by
        rw [List.nil_append]
        apply filter_not_contains_append
        intro c hc hmem
        rw [List.mem_range'_1] at hmem
        exact hdisj c (by omega) hc
      rw [hfil]
    · have hi : i < total := htrig
      rw [pack_file_fs]
      rw [show i = 0 + i from (Nat.zero_add i).symm]
      rw [packLoopFS_fail_afterCreate e i total 0 [] st hi]
      dsimp only
      have hfil : (st.chunks ++ List.range' 0 (i + 1)).filter
          (fun c => !(([] ++ List.range' 0 (i + 1) : List Nat)).contains c) = st.chunks := by
        rw [List.nil_append]
        apply filter_not_contains_append
        intro c hc hmem
        rw [List.mem_range'_1] at hmem
        exact hdisj c (by omega) hc
      rw [hfil]
  · intro hok
    rw [pack_file_fs]
    rw [packLoopFS_ok fail e total 0 [] st (fun j hj1 hj2 => by
      constructor <;> intro hcon <;> subst hcon <;>
        exact hok (by simpa [failTriggered] using hj2))]
    rw [← List.range_eq_range']
    rcases delete with _ | _
    · simp
    · simp

/-- Witness for C5: a failure after creating chunk 1 of 3 rolls all
created chunks back and keeps the source; a clean run with the delete
flag removes the source. -/
theorem c5_pack_rollback_witness :
    pack_file_fs (some (.afterCreate 1)) (.Io 5) 3 false ⟨[], [9], true⟩
      = (.error (.Io 5), (⟨[], [9], true⟩ : PackFsSt)) ∧
    pack_file_fs none (.Io 5) 3 true ⟨[], [9], true⟩
      = (.ok (), (⟨[] ++ List.range 3, [9], true && !true⟩ : PackFsSt)) :=
  ⟨(c5_pack_rollback (some (.afterCreate 1)) (.Io 5) 3 false ⟨[], [9], true⟩
      (by decide)).1 (by decide),
   (c5_pack_rollback none (.Io 5) 3 true ⟨[], [9], true⟩ (by decide)).2 (by decide)⟩

-- ─── C8: hash/size validation and temp-file removal ───────────────────

/-- C8: in `unpack_file_group`'s validation phase the accumulated hash is
compared with the declared one unless the declared hash is empty (then
no hash mismatch can be reported), the merged temp file's length is
compared with the declared `file_size`, and any mismatch removes the
temp file (contents and other files untouched) and fails; when both
checks pass the state is unchanged. -/
theorem c8_validation (md5fn : List Nat → List Nat) (expected_md5 : List Nat)
    (file_size : Nat) (st : UnpSt) (hp : st.tempPresent = true) :
    (expected_md5 = [] → ∀ x y,
      (validatePhase md5fn expected_md5 file_size st).1 ≠ .error (.Md5Mismatch x y)) ∧
    (expected_md5 ≠ [] → md5fn st.tempContent ≠ expected_md5 →
      validatePhase md5fn expected_md5 file_size st
        = (.error (.Md5Mismatch expected_md5 (md5fn st.tempContent)),
            ⟨false, st.tempContent, st.otherFiles⟩)) ∧
    ((expected_md5 = [] ∨ md5fn st.tempContent = expected_md5) →
      st.tempContent.length ≠ file_size →
      validatePhase md5fn expected_md5 file_size st
        = (.error (.Other file_size st.tempContent.length),
            ⟨false, st.tempContent, st.otherFiles⟩)) ∧
    ((expected_md5 = [] ∨ md5fn st.tempContent = expected_md5) →
      st.tempContent.length = file_size →
      validatePhase md5fn expected_md5 file_size st = (.ok (), st)) := by
  refine ⟨?_, ?_, ?_, ?_⟩
  · intro hemp x y
    rw [validatePhase, if_neg (by simp [hemp])]
    dsimp only
    split_ifs <;> simp
  · intro hne hnm
    rw [validatePhase, if_pos ⟨hne, hnm⟩]
  · intro hok hsz
    rw [validatePhase, if_neg (by rcases hok with h | h <;> simp [h])]
    dsimp only
    rw [hp]
    rw [if_pos (by simpa using hsz)]
    simp
  · intro hok hsz
    rw [validatePhase, if_neg (by rcases hok with h | h <;> simp [h])]
    dsimp only
    rw [hp]
    rw [if_neg (by simpa using hsz)]

/-- Witness for C8 at concrete inputs: an empty declared hash skips the
hash comparison, a wrong size deletes the temp file, and matching checks
leave the state unchanged. -/
theorem c8_validation_witness :
    ((validatePhase (fun l => l) [] 2 ⟨true, [7, 8], [9]⟩).1
        ≠ .error (.Md5Mismatch [1] [2])) ∧
    validatePhase (fun l => l) [] 3 ⟨true, [7, 8], [9]⟩
      = (.error (.Other 3 2), ⟨false, [7, 8], [9]⟩) ∧
    validatePhase (fun l => l) [] 2 ⟨true, [7, 8], [9]⟩ = (.ok (), ⟨true, [7, 8], [9]⟩) ∧
    validatePhase (fun l => l) [5] 2 ⟨true, [7, 8], [9]⟩
      = (.error (.Md5Mismatch [5] [7, 8]), ⟨false, [7, 8], [9]⟩) := by
  have h := c8_validation (fun l => l) [] 2 ⟨true, [7, 8], [9]⟩ (by decide)
  have h3 := c8_validation (fun l => l) [] 3 ⟨true, [7, 8], [9]⟩ (by decide)
  have hm := c8_validation (fun l => l) [5] 2 ⟨true, [7, 8], [9]⟩ (by decide)
  exact ⟨h.1 rfl [1] [2], h3.2.2.1 (Or.inl rfl) (by decide),
    h.2.2.2 (Or.inl rfl) (by decide), hm.2.1 (by decide) (by decide)⟩

-- ─── C10: missing trailing chunks pass every structural check ──────────

/-- C10: when only trailing chunks of a group are absent (the first `n`
of `total > n ≥ 1` chunks remain), the sequence-continuity check and
every per-chunk metadata check of `unpack_file_group` pass — the
declared `total_chunks` is never compared with the number of files — and
the truncation surfaces only in the validation phase, as a hash mismatch
(when a hash was declared and differs) or as the size mismatch
`Other file_size (n·P)`. -/
theorem c10_truncated_group (md5fn saltf ivf : List Nat → List Nat) (a : PackArgs) (n : Nat)
    (hP : 1 ≤ a.split_size)
    (hb : ∀ i, i < totalChunksOf a.content.length a.split_size →
      MetaBounded (packMeta md5fn a i))
    (hlen : ∀ i, i < totalChunksOf a.content.length a.split_size →
      (encMeta (packMeta md5fn a i)).length < 2 ^ 32)
    (hn1 : 1 ≤ n) (hnt : n < totalChunksOf a.content.length a.split_size) :
    contAux 0 (List.map ChunkFileM.seq ((pack_file md5fn saltf ivf a).take n)) = .ok () ∧
    unpack_file_group a.password md5fn ((pack_file md5fn saltf ivf a).take n)
      = (if fileMd5 md5fn a ≠ [] ∧
            md5fn (a.content.take (n * a.split_size)) ≠ fileMd5 md5fn a
         then .error (.Md5Mismatch (fileMd5 md5fn a)
            (md5fn (a.content.take (n * a.split_size))))
         else .error (.Other a.content.length (n * a.split_size))) := by
  have hS : 1 ≤ a.content.length := by
    by_contra hcon
    have h0 : a.content.length = 0 := by omega
    rw [totalChunksOf, if_pos h0] at hnt
    omega
  have hnp := mul_lt_of_lt_totalChunks a.content.length a.split_size n hP hS hnt
  have htake : (pack_file md5fn saltf ivf a).take n
      = (List.range n).map (packChunk md5fn saltf ivf a) := by
    rw [pack_file, ← List.map_take, List.take_range, min_eq_left (le_of_lt hnt)]
  have hcomp : (ChunkFileM.seq ∘ packChunk md5fn saltf ivf a) = id := funext fun i => rfl
  rcases Nat.exists_eq_add_of_le hn1 with ⟨t, ht⟩
  rw [Nat.add_comm] at ht
  have hrange : List.range n = 0 :: List.range' 1 (n - 1) := by
    rw [List.range_eq_range', ht, List.range'_succ]
    simp
  have hflat : ((List.range n).map (fun i =>
      (a.content.drop (i * a.split_size)).take
        (chunkLen a.content.length a.split_size i))).flatten
      = a.content.take (n * a.split_size) := by
    rw [slices_flatten a.content a.split_size hP]
    rw [min_eq_left (le_of_lt hnp)]
  rw [hrange, List.map_cons, List.flatten_cons] at hflat
  constructor
  · rw [htake, List.map_map, hcomp, List.map_id, List.range_eq_range']
    exact contAux_range n 0
  · rw [htake, hrange, List.map_cons, unpack_file_group]
    rw [List.map_cons, List.map_map, hcomp, List.map_id]
    rw [show ChunkFileM.seq (packChunk md5fn saltf ivf a 0) = 0 from rfl]
    rw [show (0 : Nat) :: List.range' 1 (n - 1) = List.range' 0 n from by
      rw [ht, List.range'_succ]
      simp]
    rw [contAux_range _ 0]
    dsimp only
    rw [processChunk_packChunk md5fn saltf ivf a 0 (hlen 0 (by omega))]
    dsimp only
    rw [decMeta_encMeta _ (hb 0 (by omega))]
    dsimp only
    rw [if_neg (by simp [packMeta])]
    dsimp only [packMeta]
    rw [unpackChunksAux_pack md5fn saltf ivf a hb hlen (n - 1) 1 (by omega)]
    dsimp only
    have hmlen : (a.content.take (n * a.split_size)).length = n * a.split_size := by
      rw [List.length_take]
      exact min_eq_left (le_of_lt hnp)
    rw [hflat, hmlen]
    split_ifs with hc h2
    · rfl
    · rfl
    · omega

/-- Witness for C10: keeping only chunk 0 of a 2-chunk group (3 bytes,
split size 2, no hash) passes continuity and metadata checks and fails
only with the size mismatch `Other 3 2`. -/
theorem c10_truncated_group_witness :
    unpack_file_group [107] (fun _ => [])
      ((pack_file (fun _ => []) (fun _ => [3]) (fun _ => [4])
        ⟨[10, 20, 30], [102], [107], 2, false, [103], 5, 420⟩).take 1)
      = .error (.Other 3 2) ∧
    contAux 0 (List.map ChunkFileM.seq
      ((pack_file (fun _ => []) (fun _ => [3]) (fun _ => [4])
        ⟨[10, 20, 30], [102], [107], 2, false, [103], 5, 420⟩).take 1)) = .ok () := by
  have h := c10_truncated_group (fun _ => []) (fun _ => [3]) (fun _ => [4])
    ⟨[10, 20, 30], [102], [107], 2, false, [103], 5, 420⟩ 1
    (by decide) (by decide) (by decide) (by decide) (by decide)
  refine ⟨?_, h.1⟩
  have h2 := h.2
  rw [if_neg (by decide)] at h2
  exact h2

-- ─── C2: the implemented name format is not the claimed grammar ────────

/-- C2 (code divergence): `final_chunk_name` produces
`<fnmd5 5>.SPLTD.<md5 8>.<seq>.<name>.cokacenc`, which never matches the
claimed grammar `<group_id 16 hex>_<seq 4 letters>.cokacenc` (byte 5 is
a dot, not a hex digit), and `parse_enc_filename` rejects a well-formed
name of the claimed grammar (`0123456789abcdef_aaaa.cokacenc`).
main.rs's own help text documents the claimed grammar, so naming.rs
contradicts the code's own documentation. -/
theorem c2_filename_grammar_divergence :
    final_chunk_name (fun _ => [97, 98, 99, 100, 101]) [120] (List.replicate 8 97) 0
      = .ok ([97, 98, 99, 100, 101] ++ [46] ++ SPLTDdot ++ List.replicate 8 97 ++ [46]
          ++ [97, 97, 97, 97] ++ [46] ++ [120] ++ EXTb) ∧
    claimedGrammarB ([97, 98, 99, 100, 101] ++ [46] ++ SPLTDdot ++ List.replicate 8 97
          ++ [46] ++ [97, 97, 97, 97] ++ [46] ++ [120] ++ EXTb) = false ∧
    claimedGrammarB ([48, 49, 50, 51, 52, 53, 54, 55, 56, 57, 97, 98, 99, 100, 101, 102]
        ++ [95] ++ [97, 97, 97, 97] ++ EXTb) = true ∧
    parse_enc_filename (fun _ => [97, 98, 99, 100, 101])
      ([48, 49, 50, 51, 52, 53, 54, 55, 56, 57, 97, 98, 99, 100, 101, 102]
        ++ [95] ++ [97, 97, 97, 97] ++ EXTb) = none := by
  refine ⟨rfl, by decide, by decide, by decide⟩

-- ─── C6: grouping is keyed by original name, not group id ──────────────

/-- C6 (code divergence): `group_enc_files` buckets parsed entries by
`original_name`.  Two chunk files with the same original name but
different content-md5 fragments — the on-disk remains of two distinct
packs of one file, i.e. two distinct groups — land in one bucket, both
with sequence index 0; no group id exists in the parsed data at all.
unpack.rs and main.rs expect buckets keyed by group id. -/
theorem c6_group_by_name_divergence :
    group_enc_files (fun _ => [48, 48, 48, 48, 48])
      [[48, 48, 48, 48, 48] ++ [46] ++ SPLTDdot ++ List.replicate 8 97 ++ [46]
          ++ [97, 97, 97, 97] ++ [46] ++ [102] ++ EXTb,
       [48, 48, 48, 48, 48] ++ [46] ++ SPLTDdot ++ List.replicate 8 98 ++ [46]
          ++ [97, 97, 97, 97] ++ [46] ++ [102] ++ EXTb] [102]
      = [⟨[102], true, List.replicate 8 97, some 0⟩,
         ⟨[102], true, List.replicate 8 98, some 0⟩] := by
  decide

-- ─── C1/C4: the --size 0 path wraps the chunk count to zero ────────────

/-- C4 (code divergence): the claimed chunk count is `max(1, ⌈S/P⌉)`,
but src/pack.rs lines 162-166 compute it in `u64`, and with
`split_size = u64::MAX` (the documented `--size 0` single-chunk mode,
src/pack.rs lines 103-107) the addition wraps for any file of 2 or more
bytes: a release build gets `total_chunks = 0` and writes no chunk at
all (a debug build panics), where the claim — and the spec's own
invariant — demand one chunk.  Sizes 0 and 1 still give one chunk. -/
theorem c4_total_chunks_overflow :
    totalChunksOf 2 (2 ^ 64 - 1) = 0 ∧
    max 1 ((2 + (2 ^ 64 - 1) - 1) / (2 ^ 64 - 1)) = 1 ∧
    (pack_file (fun _ => []) (fun _ => [3]) (fun _ => [4])
      ⟨[10, 20], [102], [107], 2 ^ 64 - 1, false, [103], 5, 420⟩).length = 0 ∧
    totalChunksOf 0 (2 ^ 64 - 1) = 1 ∧ totalChunksOf 1 (2 ^ 64 - 1) = 1 := by
  refine ⟨by decide, by decide, by decide, by decide, by decide⟩

/-- C1 (code divergence): packing a 2-byte file with
`split_size = u64::MAX` (the `--size 0` mode) produces no chunk files
at all — the wrapped `total_chunks` is 0 and the loop body never runs —
so there is no group to unpack and the content is not reproduced
(`unpack_file_group` of the produced group fails with `NoEncFiles`;
with `--delete` the original is even removed after the "successful"
pack).  The claimed universal round trip therefore fails on the code at
this reachable configuration. -/
theorem c1_roundtrip_lost_on_overflow :
    pack_file (fun _ => [9]) (fun _ => [3]) (fun _ => [4])
      ⟨[10, 20], [102], [107], 2 ^ 64 - 1, true, [103], 5, 420⟩ = [] ∧
    unpack_file_group [107] (fun _ => [9])
      (pack_file (fun _ => [9]) (fun _ => [3]) (fun _ => [4])
        ⟨[10, 20], [102], [107], 2 ^ 64 - 1, true, [103], 5, 420⟩)
      = .error .NoEncFiles :=
  ⟨rfl, rfl⟩

end Cokacenc
